import Mathlib

/-!
# Verification of the badminton scheduler (`src/app.py`)

Shallow embedding of the matchup-generation core of `src/app.py`
(`clean_name` and `generate_matchups`) together with proofs about it.

Modelling decisions:

* Python strings are Lean `String`s; Python's `<` on strings (lexicographic
  by code point) is embedded as the structurally recursive `lexLt`/`strLt`
  below, because it must evaluate inside the kernel.
* `random.sample(candidates, 4)` is modelled by an abstract sampler
  `g : Nat → List String → List String` threaded through the computation
  with a call counter (the "random-source state"); `ValidSampler` states
  `random.sample`'s contract: on a duplicate-free population of size ≥ 4 it
  returns 4 distinct members of the population.
* `list.sort(key=..., reverse=True)` is a stable descending sort; it is
  embedded as `List.insertionSort` with the relation `key b ≤ key a`, which
  is extensionally the unique stable sort for that comparison.
* `defaultdict(int)` histories and the `last_played_round` dict become total
  functions with pointwise update (`updFn`); every lookup the code performs
  is at a key the dict holds, so the total-function model is faithful.
  (`teammate_history` in the source is initialised but never read or
  written afterwards, so it does not appear in the state.)
* The unbounded `while` loop of `generate_matchups` is given explicit fuel
  `avail.length`; `courtLoop_fuel_stable` proves the fuel is never the
  reason the loop stops when the sampler meets its contract.
-/

namespace Badminton

/-- Python `ch.isprintable()` restricted to the ASCII range: the printable
ASCII characters are exactly `0x20`–`0x7E`. -/
def pyPrintable (c : Char) : Bool := 0x20 ≤ c.toNat && c.toNat ≤ 0x7E

/-- The ASCII whitespace characters removed by Python `str.strip()`. -/
def pySpace (c : Char) : Bool :=
  c.toNat = 0x20 || c.toNat = 0x9 || c.toNat = 0xA || c.toNat = 0xB ||
    c.toNat = 0xC || c.toNat = 0xD

/-- Python `str.strip()`: drop leading and trailing whitespace. -/
def pyStrip (s : List Char) : List Char :=
  ((s.dropWhile pySpace).reverse.dropWhile pySpace).reverse

/-- `clean_name` from `src/app.py`:
`"".join(ch for ch in str(name).strip() if ch.isprintable())`. -/
def cleanName (s : String) : String := ⟨(pyStrip s.data).filter pyPrintable⟩

/-- Python `<` on strings: lexicographic comparison by code point. -/
def lexLt : List Char → List Char → Bool
  | [], [] => false
  | [], _ :: _ => true
  | _ :: _, [] => false
  | a :: as, b :: bs => if a < b then true else if b < a then false else lexLt as bs

/-- Python string comparison on the character data. -/
def strLt (a b : String) : Bool := lexLt a.data b.data

/-- A Team: `tuple(sorted((p1, p2)))` — an ordered pair sorted by name. -/
abbrev Team := String × String

/-- `tuple(sorted((p1, p2)))`: the two-element stable sort puts the smaller
name first and keeps the original order on ties. -/
def teamOf (a b : String) : Team := if strLt b a then (b, a) else (a, b)

/-- A Match: `frozenset([team1, team2])`, represented canonically as the
pair of teams in lexicographic order (equal canonical pairs ↔ equal
frozensets). -/
abbrev PMatch := Team × Team

/-- Lexicographic comparison of teams, used only to canonicalise the
unordered pair of teams of a match. -/
def teamLt (t u : Team) : Bool := strLt t.1 u.1 || (t.1 == u.1 && strLt t.2 u.2)

/-- Canonical form of `frozenset([team1, team2])`. -/
def matchOf (t u : Team) : PMatch := if teamLt u t then (u, t) else (t, u)

/-- One summand of the rest penalty:
`0 if (r - last_played_round[p]) >= min_rest else 20`. -/
def restIf (minRest : Nat) (r : Int) (lp : String → Int) (p : String) : Nat :=
  if (minRest : Int) ≤ r - lp p then 0 else 20

/-- The score of one sampled group (lines 90–107 of `src/app.py`):
teammate penalties `pair_usage[team] * 10` for both teams, the opponent
penalty `match_history[match] * 5`, and the rest penalty summed over the
sample.  `random.sample(_, 4)` always returns four elements, so the
catch-all branch is never reached by the program. -/
def groupScore (pu : Team → Nat) (mh : PMatch → Nat) (lp : String → Int)
    (r : Int) (minRest : Nat) : List String → Nat
  | [p1, p2, p3, p4] =>
    pu (teamOf p1 p2) * 10 + pu (teamOf p3 p4) * 10 +
      mh (matchOf (teamOf p1 p2) (teamOf p3 p4)) * 5 +
      ([p1, p2, p3, p4].map (restIf minRest r lp)).sum
  | _ => 0

/-- The random source: call index ↦ population ↦ sample. -/
abbrev Sampler := Nat → List String → List String

/-- What `random.sample(cs, 4)` guarantees about its result. -/
def SampleOK (cs out : List String) : Prop :=
  out.length = 4 ∧ out.Nodup ∧ ∀ x ∈ out, x ∈ cs

/-- `random.sample`'s contract: on any duplicate-free population of size at
least 4 the sample is four distinct members of the population. -/
def ValidSampler (g : Sampler) : Prop :=
  ∀ n cs, 4 ≤ cs.length → cs.Nodup → SampleOK cs (g n cs)

/-- A concrete sampler satisfying the contract: take the first four. -/
def takeSampler : Sampler := fun _ cs => cs.take 4

/-- `score < best_score` where `best_score` starts at `float("inf")`
(`none`). -/
def ltOpt (s : Nat) : Option Nat → Bool
  | none => true
  | some b => s < b

/-- The 100-trial search (lines 84–111 of `src/app.py`).  Returns the best
group found together with the advanced sampler counter.  The `break` when
fewer than 4 candidates remain mirrors line 85–86. -/
def trialLoop (g : Sampler) (sc : List String → Nat) (cs : List String) :
    Nat → Nat → Option (List String) → Option Nat → Option (List String) × Nat
  | 0, cnt, best, _ => (best, cnt)
  | fuel + 1, cnt, best, bsc =>
    if cs.length < 4 then (best, cnt)
    else
      let s := g cnt cs
      if ltOpt (sc s) bsc then trialLoop g sc cs fuel (cnt + 1) (some s) (some (sc s))
      else trialLoop g sc cs fuel (cnt + 1) best bsc

/-- A court assignment recorded in `matches`: either a committed match
`(team1, team2)` (line 119) or the bye entry for the leftovers
(line 131). -/
inductive Entry where
  | game : Team → Team → Entry
  | bye : List String → Entry
deriving DecidableEq, Repr

/-- Pointwise update of a dict modelled as a total function. -/
def updFn {α β : Type} [DecidableEq α] (f : α → β) (a : α) (b : β) : α → β :=
  fun x => if x = a then b else f x

/-- The mutable state of the court-filling `while` loop. -/
structure LoopState where
  used : List String
  pu : Team → Nat
  mh : PMatch → Nat
  lp : String → Int
  ents : List Entry
  cnt : Nat

/-- Committing a winning group (lines 113–127 of `src/app.py`). -/
def commitGroup (r : Int) (p1 p2 p3 p4 : String) (st : LoopState) : LoopState :=
  let t1 := teamOf p1 p2
  let t2 := teamOf p3 p4
  let m := matchOf t1 t2
  let pu1 := updFn st.pu t1 (st.pu t1 + 1)
  { used := st.used ++ [p1, p2, p3, p4]
    pu := updFn pu1 t2 (pu1 t2 + 1)
    mh := updFn st.mh m (st.mh m + 1)
    lp := [p1, p2, p3, p4].foldl (fun f p => updFn f p r) st.lp
    ents := st.ents ++ [.game t1 t2]
    cnt := st.cnt }

/-- `[p for p in available_players if p not in used_players]`. -/
def unassigned (avail used : List String) : List String :=
  avail.filter fun p => !decide (p ∈ used)

/-- `if best_group:` followed by the four-way tuple unpacking and the
commit (lines 113–127).  A best group that is missing or not a
four-element list (impossible under `random.sample`'s contract) commits
nothing, and the `while` loop then simply runs again. -/
def commitStep (r : Int) (best : Option (List String)) (st : LoopState) : LoopState :=
  match best with
  | some [p1, p2, p3, p4] => commitGroup r p1 p2 p3 p4 st
  | _ => st

/-- The court-filling `while` loop (lines 79–127), with explicit fuel. -/
def courtLoop (g : Sampler) (minRest : Nat) (r : Int) (avail : List String) :
    Nat → LoopState → LoopState
  | 0, st => st
  | fuel + 1, st =>
    let cs := unassigned avail st.used
    if 4 ≤ cs.length then
      let res := trialLoop g (groupScore st.pu st.mh st.lp r minRest) cs 100 st.cnt none none
      courtLoop g minRest r avail fuel (commitStep r res.1 { st with cnt := res.2 })
    else st

/-- One round of `generate_matchups` (lines 72–131): sort the players by
how long they have waited (stable, descending — line 74), fill courts, and
append the bye entry when leftovers remain. -/
def runRound (g : Sampler) (minRest : Nat) (players : List String) (r : Nat)
    (pu : Team → Nat) (mh : PMatch → Nat) (lp : String → Int) (cnt : Nat) :
    List Entry × ((Team → Nat) × (PMatch → Nat) × (String → Int) × Nat) :=
  let avail := players.insertionSort
    (fun a b => ((r : Int) - lp b) ≤ ((r : Int) - lp a))
  let st := courtLoop g minRest (r : Int) avail avail.length ⟨[], pu, mh, lp, [], cnt⟩
  let leftovers := unassigned avail st.used
  let ents := st.ents ++ (if leftovers.isEmpty then [] else [Entry.bye leftovers])
  (ents, st.pu, st.mh, st.lp, st.cnt)

/-- The entries of one produced round, tagged with its 0-based index. -/
structure RoundOut where
  r : Nat
  ents : List Entry
deriving Repr

/-- The round loop `for r in range(num_rounds)`, threading the histories. -/
def roundsLoop (g : Sampler) (minRest : Nat) (players : List String) :
    Nat → Nat → (Team → Nat) → (PMatch → Nat) → (String → Int) → Nat →
    List RoundOut × Nat
  | 0, _, _, _, _, cnt => ([], cnt)
  | left + 1, r, pu, mh, lp, cnt =>
    let res := runRound g minRest players r pu mh lp cnt
    let rest := roundsLoop g minRest players left (r + 1)
      res.2.1 res.2.2.1 res.2.2.2.1 res.2.2.2.2
    (⟨r, res.1⟩ :: rest.1, rest.2)

/-- `generate_matchups` up to rendering: clean the names, initialise the
fresh histories (`pair_usage` zero, `match_history` zero,
`last_played_round[p] = -min_rest`), and run the rounds. -/
def genRounds (g : Sampler) (cnt0 : Nat) (players0 : List String)
    (numRounds minRest : Nat) : List RoundOut × Nat :=
  roundsLoop g minRest (players0.map cleanName) numRounds 0
    (fun _ => 0) (fun _ => 0) (fun _ => -(minRest : Int)) cnt0

/-- A cell of the output table: Python puts either a string or (for the
Team 1 field of a bye entry) a raw tuple of names into the dataframe. -/
inductive Cell where
  | str : String → Cell
  | tup : List String → Cell
deriving DecidableEq, Repr

/-- One output row of the dataframe returned by `generate_matchups`. -/
structure Row where
  round : Nat
  court : String
  team1 : Cell
  team2 : Cell
deriving DecidableEq, Repr

/-- `" & ".join(t) if len(t) > 1 else t[0]` for both fields of an entry:
a committed match renders both 2-tuples joined with `" & "`; the bye entry
`((tuple(leftovers),), ("BYE",))` has two 1-tuples, so Team 1 is the raw
tuple of leftovers and Team 2 is the string `"BYE"`. -/
def entryCells : Entry → Cell × Cell
  | .game t1 t2 => (.str (t1.1 ++ " & " ++ t1.2), .str (t2.1 ++ " & " ++ t2.2))
  | .bye ls => (.tup ls, .str "BYE")

/-- The rendering loop (lines 133–146): court numbers start at 1 each round
and cycle back to 1 once they pass `num_courts`. -/
def renderRows (r : Nat) (numCourts : Nat) : List Entry → Nat → List Row
  | [], _ => []
  | e :: es, court =>
    ⟨r + 1, toString court, (entryCells e).1, (entryCells e).2⟩ ::
      renderRows r numCourts es (if numCourts ≤ court then 1 else court + 1)

/-- `generate_matchups` (lines 54–148): the rows of the returned dataframe,
together with the advanced sampler counter. -/
def generateMatchups (g : Sampler) (cnt0 : Nat) (players0 : List String)
    (numRounds numCourts minRest : Nat) : List Row × Nat :=
  let res := genRounds g cnt0 players0 numRounds minRest
  ((res.1.map fun ro => renderRows ro.r numCourts ro.ents 1).flatten, res.2)

/-- The players mentioned by one entry. -/
def entryPlayers : Entry → List String
  | .game t1 t2 => [t1.1, t1.2, t2.1, t2.2]
  | .bye ls => ls

/-- The players mentioned by a list of entries, with multiplicity. -/
def entsPlayers (es : List Entry) : List String := (es.map entryPlayers).flatten

/-- Is this entry a committed match? -/
def entIsGame : Entry → Bool
  | .game _ _ => true
  | .bye _ => false

/-- Is this output row a committed match (as opposed to a bye row, whose
Team 1 cell is a raw tuple)? -/
def rowIsGame (row : Row) : Bool :=
  match row.team1 with
  | .str _ => true
  | .tup _ => false

/-! ## Order lemmas for the Python string comparison -/

theorem lexLt_irrefl : ∀ a : List Char, lexLt a a = false := by
  intro a
  induction a with
  | nil => rfl
  | cons x xs ih => simp [lexLt, lt_irrefl, ih]

theorem lexLt_asymm : ∀ a b : List Char, lexLt a b = true → lexLt b a = false := by
  intro a
  induction a with
  | nil =>
    intro b h
    cases b with
    | nil => simp [lexLt] at h
    | cons y ys => rfl
  | cons x xs ih =>
    intro b h
    cases b with
    | nil => simp [lexLt] at h
    | cons y ys =>
      simp only [lexLt] at h ⊢
      by_cases hxy : x < y
      · rw [if_neg (lt_asymm hxy), if_pos hxy]
      · by_cases hyx : y < x
        · rw [if_neg hxy, if_pos hyx] at h
          exact absurd h (by simp)
        · rw [if_neg hxy, if_neg hyx] at h
          rw [if_neg hyx, if_neg hxy]
          exact ih ys h

theorem lexLt_connex : ∀ a b : List Char, lexLt a b = false → lexLt b a = false → a = b := by
  intro a
  induction a with
  | nil =>
    intro b h _
    cases b with
    | nil => rfl
    | cons y ys => simp [lexLt] at h
  | cons x xs ih =>
    intro b h h'
    cases b with
    | nil => simp [lexLt] at h'
    | cons y ys =>
      simp only [lexLt] at h h'
      by_cases hxy : x < y
      · rw [if_pos hxy] at h; exact absurd h (by simp)
      · by_cases hyx : y < x
        · rw [if_pos hyx] at h'; exact absurd h' (by simp)
        · rw [if_neg hxy, if_neg hyx] at h
          rw [if_neg hyx, if_neg hxy] at h'
          have hxy' : x = y := le_antisymm (not_lt.mp hyx) (not_lt.mp hxy)
          rw [hxy', ih ys h h']

theorem strLt_irrefl (a : String) : strLt a a = false := lexLt_irrefl a.data

theorem strLt_asymm {a b : String} (h : strLt a b = true) : strLt b a = false :=
  lexLt_asymm a.data b.data h

theorem strLt_connex {a b : String} (h : strLt a b = false) (h' : strLt b a = false) :
    a = b :=
  String.ext (lexLt_connex a.data b.data h h')

theorem strLt_ne {a b : String} (h : strLt a b = true) : a ≠ b := by
  intro he; rw [he, strLt_irrefl] at h; exact absurd h (by simp)

theorem teamOf_comm (a b : String) : teamOf a b = teamOf b a := by
  unfold teamOf
  by_cases h : strLt b a = true
  · rw [if_pos h, if_neg (by simp [strLt_asymm h])]
  · rw [if_neg h]
    by_cases h' : strLt a b = true
    · rw [if_pos h']
    · rw [if_neg h']
      have := strLt_connex (Bool.not_eq_true _ ▸ h') (Bool.not_eq_true _ ▸ h)
      rw [this]

theorem teamOf_canonical (a b : String) :
    teamOf (teamOf a b).1 (teamOf a b).2 = teamOf a b := by
  unfold teamOf
  by_cases h : strLt b a = true
  · rw [if_pos h]
    simp only
    rw [if_neg (by simp [strLt_asymm h])]
  · rw [if_neg h]
    simp only
    rw [if_neg h]

theorem teamLt_asymm {t u : Team} (h : teamLt t u = true) : teamLt u t = false := by
  unfold teamLt at h ⊢
  rcases Bool.or_eq_true_iff.mp h with h1 | h2
  · have hne : t.1 ≠ u.1 := strLt_ne h1
    rw [strLt_asymm h1]
    have : (u.1 == t.1) = false := beq_eq_false_iff_ne.mpr (Ne.symm hne)
    rw [this]
    rfl
  · obtain ⟨he, h2⟩ := Bool.and_eq_true_iff.mp h2
    have he' : t.1 = u.1 := beq_iff_eq.mp he
    rw [← he', strLt_irrefl, strLt_asymm h2]
    simp [he']

theorem teamLt_connex {t u : Team} (h : teamLt t u = false) (h' : teamLt u t = false) :
    t = u := by
  unfold teamLt at h h'
  rcases Bool.or_eq_false_iff.mp h with ⟨h1, h2⟩
  rcases Bool.or_eq_false_iff.mp h' with ⟨h1', h2'⟩
  have he : t.1 = u.1 := strLt_connex h1 h1'
  have heb : (t.1 == u.1) = true := beq_iff_eq.mpr he
  have heb' : (u.1 == t.1) = true := beq_iff_eq.mpr he.symm
  rw [heb] at h2; rw [heb'] at h2'
  simp only [Bool.true_and] at h2 h2'
  have he2 : t.2 = u.2 := strLt_connex h2 h2'
  exact Prod.ext he he2

theorem matchOf_comm (t u : Team) : matchOf t u = matchOf u t := by
  unfold matchOf
  by_cases h : teamLt u t = true
  · rw [if_pos h, if_neg (by simp [teamLt_asymm h])]
  · rw [if_neg h]
    by_cases h' : teamLt t u = true
    · rw [if_pos h']
    · rw [if_neg h']
      have := teamLt_connex (Bool.not_eq_true _ ▸ h') (Bool.not_eq_true _ ▸ h)
      rw [this]

/-! ## C7 -/

/-- C7: Team and Match canonicalisation are order-independent and
idempotent: `teamOf a b = teamOf b a`, the canonical match of `(t, u)`
equals that of `(u, t)`, and re-canonicalising an already-canonical team
returns it unchanged. -/
theorem canonicalization_order_independent_idempotent :
    (∀ a b : String, teamOf a b = teamOf b a) ∧
    (∀ t u : Team, matchOf t u = matchOf u t) ∧
    (∀ a b : String, teamOf (teamOf a b).1 (teamOf a b).2 = teamOf a b) :=
  ⟨teamOf_comm, matchOf_comm, teamOf_canonical⟩

/-! ## The trial search: what the 100-trial loop selects -/

/-- The sequence of samples the trial loop draws: `fuel` draws starting at
counter `cnt`. -/
def samples (g : Sampler) (cs : List String) : Nat → Nat → List (List String)
  | _, 0 => []
  | cnt, fuel + 1 => g cnt cs :: samples g cs (cnt + 1) fuel

/-- Reference selection, stated from the spec's words: the lowest-scoring
sample, ties broken in favour of the earliest one. -/
def specBest (sc : List String → Nat) : List (List String) → Option (List String)
  | [] => none
  | s :: rest =>
    match specBest sc rest with
    | none => some s
    | some b => if sc s ≤ sc b then some s else some b

/-- Keep the incumbent unless the challenger is strictly better. -/
def keepBetter (sc : List String → Nat) (b : List String) :
    Option (List String) → List String
  | none => b
  | some c => if sc c < sc b then c else b

theorem samples_length (g : Sampler) (cs : List String) :
    ∀ fuel cnt, (samples g cs cnt fuel).length = fuel := by
  intro fuel
  induction fuel with
  | zero => intro cnt; rfl
  | succ n ih => intro cnt; simp [samples, ih]

theorem samples_getElem (g : Sampler) (cs : List String) :
    ∀ fuel cnt i (hi : i < (samples g cs cnt fuel).length),
      (samples g cs cnt fuel)[i] = g (cnt + i) cs := by
  intro fuel
  induction fuel with
  | zero => intro cnt i hi; simp [samples_length] at hi
  | succ n ih =>
    intro cnt i hi
    cases i with
    | zero => simp [samples]
    | succ i' =>
      have hi' : i' < (samples g cs (cnt + 1) n).length := by
        simp [samples_length] at hi ⊢; omega
      simp only [samples, List.getElem_cons_succ]
      rw [ih (cnt + 1) i' hi']
      congr 1
      omega

theorem specBest_cons_ne_none (sc : List String → Nat) (s : List String)
    (rest : List (List String)) : specBest sc (s :: rest) ≠ none := by
  simp only [specBest]
  cases specBest sc rest with
  | none => simp
  | some b => by_cases h : sc s ≤ sc b <;> simp [h]

theorem specBest_cons_eq (sc : List String → Nat) (s : List String)
    (rest : List (List String)) :
    specBest sc (s :: rest) = some (keepBetter sc s (specBest sc rest)) := by
  simp only [specBest]
  cases specBest sc rest with
  | none => simp [keepBetter]
  | some b =>
    simp only [keepBetter]
    by_cases h : sc s ≤ sc b
    · rw [if_pos h, if_neg (by omega)]
    · rw [if_neg h, if_pos (by omega)]

theorem keepBetter_cons_lt (sc : List String → Nat) {s b : List String}
    (rest : List (List String)) (h : sc s < sc b) :
    keepBetter sc b (specBest sc (s :: rest)) = keepBetter sc s (specBest sc rest) := by
  rw [specBest_cons_eq]
  cases hrest : specBest sc rest with
  | none => simp [keepBetter, h]
  | some c =>
    simp only [keepBetter]
    split_ifs <;> first | rfl | omega

theorem keepBetter_cons_ge (sc : List String → Nat) {s b : List String}
    (rest : List (List String)) (h : ¬ sc s < sc b) :
    keepBetter sc b (specBest sc (s :: rest)) = keepBetter sc b (specBest sc rest) := by
  rw [specBest_cons_eq]
  cases hrest : specBest sc rest with
  | none => simp [keepBetter, h]
  | some c =>
    simp only [keepBetter]
    split_ifs <;> first | rfl | omega

theorem trialLoop_go (g : Sampler) (sc : List String → Nat) (cs : List String)
    (h4 : 4 ≤ cs.length) :
    ∀ fuel cnt b, trialLoop g sc cs fuel cnt (some b) (some (sc b)) =
      (some (keepBetter sc b (specBest sc (samples g cs cnt fuel))), cnt + fuel) := by
  intro fuel
  induction fuel with
  | zero => intro cnt b; simp [trialLoop, samples, specBest, keepBetter]
  | succ n ih =>
    intro cnt b
    rw [trialLoop, if_neg (by omega)]
    simp only [ltOpt]
    by_cases h : sc (g cnt cs) < sc b
    · rw [if_pos (by simpa using h), ih]
      have : samples g cs cnt (n + 1) = g cnt cs :: samples g cs (cnt + 1) n := rfl
      rw [this, keepBetter_cons_lt sc _ h]
      congr 1
      omega
    · rw [if_neg (by simpa using h), ih]
      have : samples g cs cnt (n + 1) = g cnt cs :: samples g cs (cnt + 1) n := rfl
      rw [this, keepBetter_cons_ge sc _ h]
      congr 1
      omega

theorem trialLoop_run (g : Sampler) (sc : List String → Nat) (cs : List String)
    (h4 : 4 ≤ cs.length) (fuel cnt : Nat) (hf : 0 < fuel) :
    trialLoop g sc cs fuel cnt none none =
      (specBest sc (samples g cs cnt fuel), cnt + fuel) := by
  obtain ⟨n, rfl⟩ : ∃ n, fuel = n + 1 := ⟨fuel - 1, by omega⟩
  rw [trialLoop, if_neg (by omega)]
  simp only [ltOpt, if_pos]
  rw [trialLoop_go g sc cs h4]
  have : samples g cs cnt (n + 1) = g cnt cs :: samples g cs (cnt + 1) n := rfl
  rw [this, specBest_cons_eq]
  congr 1
  omega

theorem specBest_spec (sc : List String → Nat) :
    ∀ (l : List (List String)) (b : List String), specBest sc l = some b →
      ∃ j, ∃ hj : j < l.length, l[j] = b ∧
        (∀ i (hi : i < l.length), sc b ≤ sc l[i]) ∧
        (∀ i (hi : i < l.length), i < j → sc b < sc l[i]) := by
  intro l
  induction l with
  | nil => intro b h; simp [specBest] at h
  | cons s rest ih =>
    intro b h
    cases hrest : specBest sc rest with
    | none =>
      cases rest with
      | cons t ts => exact absurd hrest (specBest_cons_ne_none sc t ts)
      | nil =>
        have hb : b = s := by
          simp [specBest] at h
          exact h.symm
        subst hb
        refine ⟨0, by simp, by simp, ?_, ?_⟩
        · intro i hi
          have hi0 : i = 0 := by simpa using hi
          subst hi0
          simp
        · intro i hi hlt
          omega
    | some c =>
      simp only [specBest] at h
      rw [hrest] at h
      change (if sc s ≤ sc c then some s else some c) = some b at h
      obtain ⟨j', hj', hget, hmin, hfirst⟩ := ih c hrest
      by_cases hle : sc s ≤ sc c
      · rw [if_pos hle] at h
        injection h with h'
        subst h'
        refine ⟨0, by simp, by simp, ?_, ?_⟩
        · intro i hi
          cases i with
          | zero => simp
          | succ i' =>
            have hi'' : i' < rest.length := by simpa using hi
            calc sc s ≤ sc c := hle
              _ ≤ sc rest[i'] := hmin i' hi''
              _ = sc (s :: rest)[i' + 1] := by simp
        · intro i hi hlt
          omega
      · rw [if_neg hle] at h
        injection h with h'
        subst h'
        refine ⟨j' + 1, by simpa using hj', by simpa using hget, ?_, ?_⟩
        · intro i hi
          cases i with
          | zero => simp; omega
          | succ i' =>
            have hi'' : i' < rest.length := by simpa using hi
            simpa using hmin i' hi''
        · intro i hi hlt
          cases i with
          | zero => simp; omega
          | succ i' =>
            have hi'' : i' < rest.length := by simpa using hi
            have := hfirst i' hi'' (by omega)
            simpa using this

/-- The summed rest penalty is 20 per violating player. -/
theorem restIf_sum (minRest : Nat) (r : Int) (lp : String → Int) :
    ∀ l : List String, (l.map (restIf minRest r lp)).sum =
      20 * (l.filter fun p => decide (r - lp p < (minRest : Int))).length := by
  intro l
  induction l with
  | nil => simp
  | cons p ps ih =>
    simp only [List.map_cons, List.sum_cons, ih, List.filter_cons]
    by_cases h : (minRest : Int) ≤ r - lp p
    · rw [restIf, if_pos h, if_neg (by simpa using not_lt.mpr h)]
      omega
    · rw [restIf, if_neg h, if_pos (by simpa using lt_of_not_le h)]
      simp
      omega

/-! ## C2 -/

/-- C2: each trial group of four is scored as 10 × `pair_usage` of each
sorted team plus 5 × `match_history` of the canonical match plus a flat 20
per player whose last-played round violates `min_rest`; among the 100
trials the loop returns the lowest-scoring sample, ties broken in favour
of the earliest trial. -/
theorem trial_scoring_and_selection (g : Sampler) (pu : Team → Nat)
    (mh : PMatch → Nat) (lp : String → Int) (r : Int) (minRest : Nat)
    (cs : List String) (cnt : Nat) (h4 : 4 ≤ cs.length) :
    (∀ p1 p2 p3 p4 : String,
        groupScore pu mh lp r minRest [p1, p2, p3, p4] =
          10 * pu (teamOf p1 p2) + 10 * pu (teamOf p3 p4) +
            5 * mh (matchOf (teamOf p1 p2) (teamOf p3 p4)) +
            20 * ([p1, p2, p3, p4].filter fun p =>
                decide (r - lp p < (minRest : Int))).length) ∧
    ∃ j, ∃ hj : j < 100,
      (trialLoop g (groupScore pu mh lp r minRest) cs 100 cnt none none).1 =
        some (g (cnt + j) cs) ∧
      (∀ i, i < 100 → groupScore pu mh lp r minRest (g (cnt + j) cs) ≤
        groupScore pu mh lp r minRest (g (cnt + i) cs)) ∧
      (∀ i, i < j → groupScore pu mh lp r minRest (g (cnt + j) cs) <
        groupScore pu mh lp r minRest (g (cnt + i) cs)) := by
  constructor
  · intro p1 p2 p3 p4
    rw [groupScore, restIf_sum]
    ring
  · set sc := groupScore pu mh lp r minRest with hsc
    have hrun := trialLoop_run g sc cs h4 100 cnt (by omega)
    have hne : specBest sc (samples g cs cnt 100) ≠ none := by
      have : samples g cs cnt 100 = g cnt cs :: samples g cs (cnt + 1) 99 := rfl
      rw [this]
      exact specBest_cons_ne_none sc _ _
    obtain ⟨b, hb⟩ : ∃ b, specBest sc (samples g cs cnt 100) = some b := by
      cases hx : specBest sc (samples g cs cnt 100) with
      | none => exact absurd hx hne
      | some b => exact ⟨b, rfl⟩
    obtain ⟨j, hj, hget, hmin, hfirst⟩ := specBest_spec sc _ b hb
    have hlen : (samples g cs cnt 100).length = 100 := samples_length g cs 100 cnt
    have hj100 : j < 100 := by omega
    have hbval : b = g (cnt + j) cs := by
      rw [← samples_getElem g cs 100 cnt j hj]; rw [hget]
    refine ⟨j, hj100, ?_, ?_, ?_⟩
    · rw [hrun]
      simp only
      rw [hb, hbval]
    · intro i hi
      have hi' : i < (samples g cs cnt 100).length := by omega
      have := hmin i hi'
      rw [samples_getElem g cs 100 cnt i hi'] at this
      rw [← hbval]
      exact this
    · intro i hij
      have hi' : i < (samples g cs cnt 100).length := by omega
      have := hfirst i hi' hij
      rw [samples_getElem g cs 100 cnt i hi'] at this
      rw [← hbval]
      exact this

/-! ## The court-filling loop -/

theorem eq_four_of_length (l : List String) (h : l.length = 4) :
    ∃ a b c d, l = [a, b, c, d] := by
  cases l with
  | nil => simp at h
  | cons a l1 =>
    cases l1 with
    | nil => simp at h
    | cons b l2 =>
      cases l2 with
      | nil => simp at h
      | cons c l3 =>
        cases l3 with
        | nil => simp at h
        | cons d l4 =>
          cases l4 with
          | nil => exact ⟨a, b, c, d, rfl⟩
          | cons e l5 => simp at h

theorem teamOf_pair_perm (a b : String) :
    [(teamOf a b).1, (teamOf a b).2].Perm [a, b] := by
  unfold teamOf
  split_ifs
  · exact List.Perm.swap a b []
  · exact List.Perm.refl _

theorem entryPlayers_game_perm (p1 p2 p3 p4 : String) :
    (entryPlayers (Entry.game (teamOf p1 p2) (teamOf p3 p4))).Perm [p1, p2, p3, p4] := by
  have h1 := teamOf_pair_perm p1 p2
  have h2 := teamOf_pair_perm p3 p4
  have he : entryPlayers (Entry.game (teamOf p1 p2) (teamOf p3 p4)) =
      [(teamOf p1 p2).1, (teamOf p1 p2).2] ++ [(teamOf p3 p4).1, (teamOf p3 p4).2] := rfl
  have ht : [p1, p2, p3, p4] = [p1, p2] ++ [p3, p4] := rfl
  rw [he, ht]
  exact h1.append h2

theorem mem_unassigned {avail used : List String} {x : String} :
    x ∈ unassigned avail used ↔ x ∈ avail ∧ x ∉ used := by
  simp [unassigned]

theorem unassigned_nil (avail : List String) : unassigned avail [] = avail := by
  simp [unassigned]

theorem unassigned_append (avail u v : List String) :
    unassigned avail (u ++ v) = (unassigned avail u).filter fun p => !decide (p ∈ v) := by
  simp only [unassigned, List.filter_filter]
  apply List.filter_congr
  intro x _
  simp only [List.mem_append]
  by_cases hu : x ∈ u <;> by_cases hv : x ∈ v <;> simp [hu, hv]

theorem filter_mem_length (cs grp : List String) (hnd : cs.Nodup) (hg : grp.Nodup)
    (hsub : ∀ x ∈ grp, x ∈ cs) :
    (cs.filter fun p => !decide (p ∈ grp)).length = cs.length - grp.length := by
  have hperm := List.filter_append_perm (fun p => decide (p ∈ grp)) cs
  have hpos : (cs.filter fun p => decide (p ∈ grp)).Perm grp := by
    apply List.perm_of_nodup_nodup_toFinset_eq (hnd.filter _) hg
    ext x
    simp only [List.mem_toFinset, List.mem_filter, decide_eq_true_eq]
    exact ⟨fun h => h.2, fun h => ⟨hsub x h, h⟩⟩
  have hlen := hperm.length_eq
  rw [List.length_append] at hlen
  have hlen2 := hpos.length_eq
  omega

theorem entsPlayers_append (es1 es2 : List Entry) :
    entsPlayers (es1 ++ es2) = entsPlayers es1 ++ entsPlayers es2 := by
  simp [entsPlayers]

theorem entsPlayers_cons (e : Entry) (es : List Entry) :
    entsPlayers (e :: es) = entryPlayers e ++ entsPlayers es := by
  simp [entsPlayers]

/-- One iteration of the court loop when at least four candidates remain:
the trial search yields a committable group of four distinct unassigned
players and the loop recurses on the committed state. -/
theorem courtLoop_step (g : Sampler) (hg : ValidSampler g) (minRest : Nat) (r : Int)
    (avail : List String) (st : LoopState)
    (h4 : 4 ≤ (unassigned avail st.used).length)
    (hnd : (unassigned avail st.used).Nodup) :
    ∃ p1 p2 p3 p4,
      ([p1, p2, p3, p4] : List String).Nodup ∧
      p1 ∈ unassigned avail st.used ∧ p2 ∈ unassigned avail st.used ∧
      p3 ∈ unassigned avail st.used ∧ p4 ∈ unassigned avail st.used ∧
      ∀ fuel, courtLoop g minRest r avail (fuel + 1) st =
        courtLoop g minRest r avail fuel
          (commitGroup r p1 p2 p3 p4 { st with cnt := st.cnt + 100 }) := by
  have hrun := trialLoop_run g (groupScore st.pu st.mh st.lp r minRest)
    (unassigned avail st.used) h4 100 st.cnt (by omega)
  obtain ⟨b, hb⟩ : ∃ b, specBest (groupScore st.pu st.mh st.lp r minRest)
      (samples g (unassigned avail st.used) st.cnt 100) = some b := by
    have hsh : samples g (unassigned avail st.used) st.cnt 100 =
        g st.cnt (unassigned avail st.used) ::
          samples g (unassigned avail st.used) (st.cnt + 1) 99 := rfl
    rw [hsh]
    cases hx : specBest (groupScore st.pu st.mh st.lp r minRest)
        (g st.cnt (unassigned avail st.used) ::
          samples g (unassigned avail st.used) (st.cnt + 1) 99) with
    | none => exact absurd hx (specBest_cons_ne_none _ _ _)
    | some b => exact ⟨b, rfl⟩
  obtain ⟨j, hj, hget, _, _⟩ := specBest_spec _ _ b hb
  have hbval : b = g (st.cnt + j) (unassigned avail st.used) := by
    rw [← samples_getElem g (unassigned avail st.used) 100 st.cnt j hj, hget]
  have hok : SampleOK (unassigned avail st.used) b := by
    rw [hbval]; exact hg _ _ h4 hnd
  obtain ⟨p1, p2, p3, p4, hbl⟩ := eq_four_of_length b hok.1
  refine ⟨p1, p2, p3, p4, hbl ▸ hok.2.1, ?_, ?_, ?_, ?_, ?_⟩
  · exact hok.2.2 p1 (by rw [hbl]; simp)
  · exact hok.2.2 p2 (by rw [hbl]; simp)
  · exact hok.2.2 p3 (by rw [hbl]; simp)
  · exact hok.2.2 p4 (by rw [hbl]; simp)
  · intro fuel
    rw [courtLoop, if_pos h4]
    simp only
    rw [hrun]
    simp only
    rw [hb, hbl]
    rfl

/-- The master invariant of the court-filling loop: under the sampler
contract, the loop extends `used` by a duplicate-free set `ds` of players
from `avail`, appends exactly `⌊candidates/4⌋` committed matches whose
players are (as a multiset) exactly `ds`, and each committed match is two
sorted teams of four distinct available players. -/
theorem courtLoop_spec (g : Sampler) (hg : ValidSampler g) (minRest : Nat) (r : Int)
    (avail : List String) (hA : avail.Nodup) :
    ∀ fuel (st : LoopState), st.used.Nodup → (∀ p ∈ st.used, p ∈ avail) →
      (unassigned avail st.used).length ≤ fuel →
      ∃ ds es,
        (courtLoop g minRest r avail fuel st).used = st.used ++ ds ∧
        (courtLoop g minRest r avail fuel st).ents = st.ents ++ es ∧
        ds.Nodup ∧ (∀ p ∈ ds, p ∈ avail ∧ p ∉ st.used) ∧
        (entsPlayers es).Perm ds ∧
        es.length = (unassigned avail st.used).length / 4 ∧
        ∀ e ∈ es, ∃ p1 p2 p3 p4, e = Entry.game (teamOf p1 p2) (teamOf p3 p4) ∧
          ([p1, p2, p3, p4] : List String).Nodup ∧
          p1 ∈ avail ∧ p2 ∈ avail ∧ p3 ∈ avail ∧ p4 ∈ avail := by
  intro fuel
  induction fuel with
  | zero =>
    intro st hu hsub hlen
    have h0 : (unassigned avail st.used).length = 0 := by omega
    exact ⟨[], [], by simp [courtLoop], by simp [courtLoop], by simp, by simp,
      by simp [entsPlayers], by simp [h0], by simp⟩
  | succ fuel ih =>
    intro st hu hsub hlen
    by_cases h4 : 4 ≤ (unassigned avail st.used).length
    · have hcsnd : (unassigned avail st.used).Nodup := hA.filter _
      obtain ⟨p1, p2, p3, p4, hnd4, hm1, hm2, hm3, hm4, hstep⟩ :=
        courtLoop_step g hg minRest r avail st h4 hcsnd
      set st' := commitGroup r p1 p2 p3 p4 { st with cnt := st.cnt + 100 } with hst'
      have hused' : st'.used = st.used ++ [p1, p2, p3, p4] := rfl
      have hents' : st'.ents = st.ents ++ [Entry.game (teamOf p1 p2) (teamOf p3 p4)] := rfl
      have hgrp_avail : ∀ x ∈ ([p1, p2, p3, p4] : List String), x ∈ avail := by
        intro x hx
        simp only [List.mem_cons, List.not_mem_nil, or_false] at hx
        rcases hx with rfl | rfl | rfl | rfl
        · exact (mem_unassigned.mp hm1).1
        · exact (mem_unassigned.mp hm2).1
        · exact (mem_unassigned.mp hm3).1
        · exact (mem_unassigned.mp hm4).1
      have hgrp_notused : ∀ x ∈ ([p1, p2, p3, p4] : List String), x ∉ st.used := by
        intro x hx
        simp only [List.mem_cons, List.not_mem_nil, or_false] at hx
        rcases hx with rfl | rfl | rfl | rfl
        · exact (mem_unassigned.mp hm1).2
        · exact (mem_unassigned.mp hm2).2
        · exact (mem_unassigned.mp hm3).2
        · exact (mem_unassigned.mp hm4).2
      have hgrp_cs : ∀ x ∈ ([p1, p2, p3, p4] : List String), x ∈ unassigned avail st.used := by
        intro x hx
        exact mem_unassigned.mpr ⟨hgrp_avail x hx, hgrp_notused x hx⟩
      have hu' : st'.used.Nodup := by
        rw [hused']
        exact hu.append hnd4 (List.disjoint_left.mpr fun a ha hb => hgrp_notused a hb ha)
      have hsub' : ∀ p ∈ st'.used, p ∈ avail := by
        rw [hused']
        intro p hp
        rcases List.mem_append.mp hp with hp | hp
        · exact hsub p hp
        · exact hgrp_avail p hp
      have hcs' : unassigned avail st'.used =
          (unassigned avail st.used).filter fun p => !decide (p ∈ ([p1, p2, p3, p4] : List String)) := by
        rw [hused', unassigned_append]
      have hlen' : (unassigned avail st'.used).length =
          (unassigned avail st.used).length - 4 := by
        rw [hcs']
        rw [filter_mem_length _ _ hcsnd hnd4 hgrp_cs]
        rfl
      have hfuel' : (unassigned avail st'.used).length ≤ fuel := by omega
      obtain ⟨ds', es', hdu, hde, hdnd, hdmem, hdperm, hdlen, hdshape⟩ := ih st' hu' hsub' hfuel'
      refine ⟨[p1, p2, p3, p4] ++ ds', Entry.game (teamOf p1 p2) (teamOf p3 p4) :: es',
        ?_, ?_, ?_, ?_, ?_, ?_, ?_⟩
      · rw [hstep fuel, hdu, hused', List.append_assoc]
      · rw [hstep fuel, hde, hents']
        simp
      · refine hnd4.append hdnd (List.disjoint_left.mpr fun a ha hb => ?_)
        have := (hdmem a hb).2
        rw [hused'] at this
        exact this (List.mem_append.mpr (Or.inr ha))
      · intro p hp
        rcases List.mem_append.mp hp with hp | hp
        · exact ⟨hgrp_avail p hp, hgrp_notused p hp⟩
        · refine ⟨(hdmem p hp).1, fun hc => ?_⟩
          have := (hdmem p hp).2
          rw [hused'] at this
          exact this (List.mem_append.mpr (Or.inl hc))
      · rw [entsPlayers_cons]
        exact (entryPlayers_game_perm p1 p2 p3 p4).append hdperm
      · simp only [List.length_cons, hdlen, hlen']
        omega
      · intro e he
        rcases List.mem_cons.mp he with he | he
        · exact ⟨p1, p2, p3, p4, he, hnd4,
            hgrp_avail p1 (by simp), hgrp_avail p2 (by simp),
            hgrp_avail p3 (by simp), hgrp_avail p4 (by simp)⟩
        · exact hdshape e he
    · have hcl : courtLoop g minRest r avail (fuel + 1) st = st := by
        rw [courtLoop, if_neg h4]
      have hd0 : (unassigned avail st.used).length / 4 = 0 := Nat.div_eq_of_lt (by omega)
      exact ⟨[], [], by simp [hcl], by simp [hcl], by simp, by simp,
        by simp [entsPlayers], by simp [hd0], by simp⟩

/-- Fuel-insensitivity of the court loop: with the sampler contract, fuel
equal to the number of unassigned candidates already reaches the loop's
natural exit (`< 4` unassigned players), so any additional fuel changes
nothing — the embedded `while` loop terminates. -/
theorem courtLoop_fuel_stable (g : Sampler) (hg : ValidSampler g) (minRest : Nat) (r : Int)
    (avail : List String) (hA : avail.Nodup) :
    ∀ fuel (st : LoopState), st.used.Nodup → (∀ p ∈ st.used, p ∈ avail) →
      (unassigned avail st.used).length ≤ fuel →
      ∀ extra, courtLoop g minRest r avail (fuel + extra) st =
        courtLoop g minRest r avail fuel st := by
  intro fuel
  induction fuel with
  | zero =>
    intro st hu hsub hlen extra
    cases extra with
    | zero => rfl
    | succ e =>
      have h4 : ¬ 4 ≤ (unassigned avail st.used).length := by omega
      rw [Nat.zero_add, courtLoop, courtLoop, if_neg h4]
  | succ fuel ih =>
    intro st hu hsub hlen extra
    have hsucc : fuel + 1 + extra = (fuel + extra) + 1 := by omega
    by_cases h4 : 4 ≤ (unassigned avail st.used).length
    · have hcsnd : (unassigned avail st.used).Nodup := hA.filter _
      obtain ⟨p1, p2, p3, p4, hnd4, hm1, hm2, hm3, hm4, hstep⟩ :=
        courtLoop_step g hg minRest r avail st h4 hcsnd
      set st' := commitGroup r p1 p2 p3 p4 { st with cnt := st.cnt + 100 } with hst'
      have hused' : st'.used = st.used ++ [p1, p2, p3, p4] := rfl
      have hgrp_cs : ∀ x ∈ ([p1, p2, p3, p4] : List String), x ∈ unassigned avail st.used := by
        intro x hx
        simp only [List.mem_cons, List.not_mem_nil, or_false] at hx
        rcases hx with rfl | rfl | rfl | rfl
        · exact hm1
        · exact hm2
        · exact hm3
        · exact hm4
      have hu' : st'.used.Nodup := by
        rw [hused']
        exact hu.append hnd4 (List.disjoint_left.mpr
          fun a ha hb => (mem_unassigned.mp (hgrp_cs a hb)).2 ha)
      have hsub' : ∀ p ∈ st'.used, p ∈ avail := by
        rw [hused']
        intro p hp
        rcases List.mem_append.mp hp with hp | hp
        · exact hsub p hp
        · exact (mem_unassigned.mp (hgrp_cs p hp)).1
      have hlen' : (unassigned avail st'.used).length =
          (unassigned avail st.used).length - 4 := by
        rw [hused', unassigned_append, filter_mem_length _ _ hcsnd hnd4 hgrp_cs]
        rfl
      have hfuel' : (unassigned avail st'.used).length ≤ fuel := by omega
      rw [hsucc, hstep (fuel + extra), hstep fuel]
      exact ih st' hu' hsub' hfuel' extra
    · rw [hsucc, courtLoop, if_neg h4, courtLoop, if_neg h4]

/-! ## Per-round structure -/

theorem filter_mem_perm (cs grp : List String) (hnd : cs.Nodup) (hg : grp.Nodup)
    (hsub : ∀ x ∈ grp, x ∈ cs) :
    (cs.filter fun p => decide (p ∈ grp)).Perm grp := by
  apply List.perm_of_nodup_nodup_toFinset_eq (hnd.filter _) hg
  ext x
  simp only [List.mem_toFinset, List.mem_filter, decide_eq_true_eq]
  exact ⟨fun h => h.2, fun h => ⟨hsub x h, h⟩⟩

theorem entsPlayers_length_of_games (es : List Entry)
    (h : ∀ e ∈ es, ∃ p1 p2 p3 p4, e = Entry.game (teamOf p1 p2) (teamOf p3 p4) ∧
      ([p1, p2, p3, p4] : List String).Nodup) :
    (entsPlayers es).length = 4 * es.length := by
  induction es with
  | nil => simp [entsPlayers]
  | cons e es ih =>
    obtain ⟨p1, p2, p3, p4, he, _⟩ := h e (by simp)
    rw [entsPlayers_cons, List.length_append, he]
    have h4 : (entryPlayers (Entry.game (teamOf p1 p2) (teamOf p3 p4))).length = 4 := rfl
    rw [h4, ih (fun e' he' => h e' (by simp [he']))]
    simp only [List.length_cons]
    omega

/-- What one produced round of `generate_matchups` looks like: the
committed games followed by the bye entry (present exactly when leftovers
remain); there are `⌊n/4⌋` games of two sorted teams of four distinct
players, `n % 4` leftovers, and together they partition the player list. -/
def RoundGood (players : List String) (es : List Entry) : Prop :=
  ∃ games leftovers : List _,
    es = games ++ (if (leftovers : List String).isEmpty then [] else [Entry.bye leftovers]) ∧
    games.length = players.length / 4 ∧
    (∀ e ∈ games, ∃ p1 p2 p3 p4, e = Entry.game (teamOf p1 p2) (teamOf p3 p4) ∧
      ([p1, p2, p3, p4] : List String).Nodup) ∧
    leftovers.Nodup ∧ leftovers.length = players.length % 4 ∧
    (entsPlayers games ++ leftovers).Perm players ∧
    (entsPlayers es).Perm players

theorem runRound_good (g : Sampler) (hg : ValidSampler g) (minRest : Nat)
    (players : List String) (hP : players.Nodup) (r : Nat)
    (pu : Team → Nat) (mh : PMatch → Nat) (lp : String → Int) (cnt : Nat) :
    RoundGood players (runRound g minRest players r pu mh lp cnt).1 := by
  have hperm : (players.insertionSort
      fun a b => ((r : Int) - lp b) ≤ ((r : Int) - lp a)).Perm players :=
    List.perm_insertionSort _ players
  set avail := players.insertionSort
    (fun a b => ((r : Int) - lp b) ≤ ((r : Int) - lp a)) with havail
  have hA : avail.Nodup := hperm.nodup_iff.mpr hP
  have hlenav : avail.length = players.length := hperm.length_eq
  obtain ⟨ds, es, hdu, hde, hdnd, hdmem, hdperm, hdlen, hdshape⟩ :=
    courtLoop_spec g hg minRest r avail hA avail.length ⟨[], pu, mh, lp, [], cnt⟩
      (by simp) (by simp) (by rw [unassigned_nil])
  set stf := courtLoop g minRest (r : Int) avail avail.length ⟨[], pu, mh, lp, [], cnt⟩
    with hstf
  have hused : stf.used = ds := by rw [hdu]; rfl
  have hents : stf.ents = es := by rw [hde]; rfl
  have hdsub : ∀ x ∈ ds, x ∈ avail := fun x hx => (hdmem x hx).1
  have hshape' : ∀ e ∈ es, ∃ p1 p2 p3 p4,
      e = Entry.game (teamOf p1 p2) (teamOf p3 p4) ∧
      ([p1, p2, p3, p4] : List String).Nodup := by
    intro e he
    obtain ⟨p1, p2, p3, p4, h1, h2, _⟩ := hdshape e he
    exact ⟨p1, p2, p3, p4, h1, h2⟩
  have hlen0 : (unassigned avail ([] : List String)).length = avail.length := by
    rw [unassigned_nil]
  have heslen : es.length = players.length / 4 := by
    rw [hdlen]
    have : (unassigned avail (⟨[], pu, mh, lp, [], cnt⟩ : LoopState).used).length
        = avail.length := hlen0
    rw [this, hlenav]
  have hpl : (entsPlayers es).length = 4 * es.length :=
    entsPlayers_length_of_games es hshape'
  have hdslen : ds.length = 4 * es.length := by
    have := hdperm.length_eq
    omega
  set leftovers := unassigned avail stf.used with hlf
  have hlfnd : leftovers.Nodup := hA.filter _
  have hlflen : leftovers.length = players.length % 4 := by
    have : leftovers.length = avail.length - ds.length := by
      rw [hlf, hused]
      exact filter_mem_length avail ds hA hdnd hdsub
    rw [this, hlenav, hdslen, heslen]
    omega
  have hbig : (entsPlayers es ++ leftovers).Perm players := by
    have h1 : (entsPlayers es ++ leftovers).Perm (ds ++ leftovers) :=
      hdperm.append (List.Perm.refl _)
    have h2 : (ds ++ leftovers).Perm
        ((avail.filter fun p => decide (p ∈ ds)) ++ leftovers) :=
      (filter_mem_perm avail ds hA hdnd hdsub).symm.append (List.Perm.refl _)
    have h3 : ((avail.filter fun p => decide (p ∈ ds)) ++ leftovers).Perm avail := by
      rw [hlf, hused]
      exact List.filter_append_perm _ avail
    exact ((h1.trans h2).trans h3).trans hperm
  refine ⟨es, leftovers, ?_, heslen, hshape', hlfnd, hlflen, hbig, ?_⟩
  · show stf.ents ++ _ = _
    rw [hents]
  · show (entsPlayers (stf.ents ++ _)).Perm players
    rw [hents, entsPlayers_append]
    by_cases hemp : leftovers.isEmpty
    · rw [if_pos hemp]
      have : leftovers = [] := List.isEmpty_iff.mp hemp
      rw [this] at hbig
      simpa [entsPlayers] using hbig
    · rw [if_neg hemp]
      have : entsPlayers [Entry.bye leftovers] = leftovers := by
        simp [entsPlayers, entryPlayers]
      rw [this]
      exact hbig

theorem roundsLoop_good (g : Sampler) (hg : ValidSampler g) (minRest : Nat)
    (players : List String) (hP : players.Nodup) :
    ∀ left r0 (pu : Team → Nat) (mh : PMatch → Nat) (lp : String → Int) cnt,
      (roundsLoop g minRest players left r0 pu mh lp cnt).1.length = left ∧
      ∀ ro ∈ (roundsLoop g minRest players left r0 pu mh lp cnt).1,
        RoundGood players ro.ents := by
  intro left
  induction left with
  | zero =>
    intro r0 pu mh lp cnt
    exact ⟨rfl, by intro ro h; simp [roundsLoop] at h⟩
  | succ n ih =>
    intro r0 pu mh lp cnt
    simp only [roundsLoop]
    constructor
    · simp only [List.length_cons]
      rw [(ih (r0 + 1) _ _ _ _).1]
    · intro ro hro
      rcases List.mem_cons.mp hro with h | h
      · rw [h]
        exact runRound_good g hg minRest players hP r0 pu mh lp cnt
      · exact (ih (r0 + 1) _ _ _ _).2 ro h

/-- All structural facts about the rounds of one `generate_matchups` call:
there are exactly `numRounds` rounds and each satisfies `RoundGood`. -/
theorem genRounds_good (g : Sampler) (hg : ValidSampler g) (cnt0 : Nat)
    (players0 : List String) (numRounds minRest : Nat)
    (hnd : (players0.map cleanName).Nodup) :
    (genRounds g cnt0 players0 numRounds minRest).1.length = numRounds ∧
    ∀ ro ∈ (genRounds g cnt0 players0 numRounds minRest).1,
      RoundGood (players0.map cleanName) ro.ents :=
  roundsLoop_good g hg minRest (players0.map cleanName) hnd numRounds 0 _ _ _ cnt0

/-! ## Rendering lemmas -/

theorem renderRows_filter_game (r nc : Nat) :
    ∀ (es : List Entry) (c : Nat),
      ((renderRows r nc es c).filter rowIsGame).length = (es.filter entIsGame).length := by
  intro es
  induction es with
  | nil => intro c; rfl
  | cons e es ih =>
    intro c
    cases e with
    | game t1 t2 =>
      simp [renderRows, entryCells, rowIsGame, entIsGame, List.filter_cons, ih]
    | bye ls =>
      simp [renderRows, entryCells, rowIsGame, entIsGame, List.filter_cons, ih]

theorem renderRows_append_last (r nc : Nat) (e : Entry) :
    ∀ (es : List Entry) (c : Nat), ∃ c' : Nat, renderRows r nc (es ++ [e]) c =
      renderRows r nc es c ++ [⟨r + 1, toString c', (entryCells e).1, (entryCells e).2⟩] := by
  intro es
  induction es with
  | nil => intro c; exact ⟨c, rfl⟩
  | cons e' es ih =>
    intro c
    obtain ⟨c', hc⟩ := ih (if nc ≤ c then 1 else c + 1)
    refine ⟨c', ?_⟩
    simp only [List.cons_append, renderRows]
    exact congrArg _ hc

theorem flatten_filter_length_const {α β : Type} (f : α → List β) (p : β → Bool) (k : Nat) :
    ∀ l : List α, (∀ x ∈ l, ((f x).filter p).length = k) →
      (((l.map f).flatten).filter p).length = l.length * k := by
  intro l
  induction l with
  | nil => intro _; simp
  | cons x xs ih =>
    intro h
    simp only [List.map_cons, List.flatten_cons, List.filter_append, List.length_append,
      List.length_cons]
    rw [h x (by simp), ih (fun y hy => h y (by simp [hy]))]
    ring

theorem roundGood_game_count {players : List String} {es : List Entry}
    (h : RoundGood players es) :
    (es.filter entIsGame).length = players.length / 4 := by
  obtain ⟨games, leftovers, he, hlen, hshape, _⟩ := h
  rw [he, List.filter_append, List.length_append]
  have h1 : games.filter entIsGame = games := by
    apply List.filter_eq_self.mpr
    intro e he'
    obtain ⟨p1, p2, p3, p4, heq, _⟩ := hshape e he'
    rw [heq]; rfl
  have h2 : ((if leftovers.isEmpty then ([] : List Entry)
      else [Entry.bye leftovers]).filter entIsGame) = [] := by
    by_cases hemp : leftovers.isEmpty <;> simp [hemp, entIsGame]
  rw [h1, h2, hlen]
  simp

/-! ## C1 -/

/-- C1: with a duplicate-free cleaned roster and a sampler meeting
`random.sample`'s contract, every produced round consists of committed
matches followed by at most one bye entry, and the players of the round's
matches together with the bye players are a permutation of the full
(duplicate-free) player list — every player exactly once, none omitted,
none in both. -/
theorem round_partitions_players (g : Sampler) (hg : ValidSampler g)
    (cnt0 : Nat) (players0 : List String) (numRounds minRest : Nat)
    (hnd : (players0.map cleanName).Nodup) (hne : players0 ≠ [])
    (hr : 0 < numRounds) :
    ∀ ro ∈ (genRounds g cnt0 players0 numRounds minRest).1,
      (∃ games byePart, ro.ents = games ++ byePart ∧
        (∀ e ∈ games, ∃ t1 t2, e = Entry.game t1 t2) ∧
        (byePart = [] ∨ ∃ ls : List String, ls ≠ [] ∧ byePart = [Entry.bye ls])) ∧
      (entsPlayers ro.ents).Perm (players0.map cleanName) := by
  intro ro hro
  obtain ⟨games, leftovers, he, _, hshape, _, _, _, hperm⟩ :=
    (genRounds_good g hg cnt0 players0 numRounds minRest hnd).2 ro hro
  refine ⟨⟨games, _, he, ?_, ?_⟩, hperm⟩
  · intro e he'
    obtain ⟨p1, p2, p3, p4, heq, _⟩ := hshape e he'
    exact ⟨teamOf p1 p2, teamOf p3 p4, heq⟩
  · by_cases hemp : leftovers.isEmpty
    · left; rw [if_pos hemp]
    · right
      refine ⟨leftovers, ?_, by rw [if_neg hemp]⟩
      intro hnil
      rw [hnil] at hemp
      exact hemp rfl

/-! ## C3 -/

/-- C3: with fewer than 4 (but at least one) players, every one of the
`numRounds` rounds is a single bye entry holding all supplied players and
no match is committed; with an empty player list the returned dataframe
has no rows at all.  The function is total — no error is possible. -/
theorem sparse_input_all_bye (g : Sampler) (hg : ValidSampler g)
    (cnt0 : Nat) (players0 : List String) (numRounds numCourts minRest : Nat)
    (hnd : (players0.map cleanName).Nodup)
    (hlt : (players0.map cleanName).length < 4) :
    ((players0.map cleanName) ≠ [] →
      (genRounds g cnt0 players0 numRounds minRest).1.length = numRounds ∧
      ∀ ro ∈ (genRounds g cnt0 players0 numRounds minRest).1,
        ∃ L : List String, ro.ents = [Entry.bye L] ∧ L.Perm (players0.map cleanName)) ∧
    (players0 = [] →
      (generateMatchups g cnt0 players0 numRounds numCourts minRest).1 = []) := by
  constructor
  · intro hne
    refine ⟨(genRounds_good g hg cnt0 players0 numRounds minRest hnd).1, ?_⟩
    intro ro hro
    obtain ⟨games, leftovers, he, hglen, _, _, hllen, hperm, _⟩ :=
      (genRounds_good g hg cnt0 players0 numRounds minRest hnd).2 ro hro
    have hg0 : games = [] := by
      have : games.length = 0 := by rw [hglen]; omega
      exact List.length_eq_zero.mp this
    have hlL : leftovers.length = (players0.map cleanName).length := by
      rw [hllen]
      have : (players0.map cleanName).length ≠ 0 := by
        intro h0
        exact hne (List.length_eq_zero.mp h0)
      omega
    have hnemp : ¬ leftovers.isEmpty := by
      intro hemp
      have : leftovers = [] := List.isEmpty_iff.mp hemp
      rw [this] at hlL
      exact hne (List.length_eq_zero.mp hlL.symm)
    refine ⟨leftovers, ?_, ?_⟩
    · rw [he, hg0, if_neg hnemp]
      rfl
    · rw [hg0] at hperm
      simpa [entsPlayers] using hperm
  · intro hemp
    subst hemp
    have hrg := (genRounds_good g hg cnt0 [] numRounds minRest hnd).2
    simp only [generateMatchups]
    apply List.flatten_eq_nil_iff.mpr
    intro rows hrows
    obtain ⟨ro, hro, hrw⟩ := List.mem_map.mp hrows
    obtain ⟨games, leftovers, he, hglen, _, _, hllen, _, _⟩ := hrg ro hro
    have hg0 : games = [] := List.length_eq_zero.mp (by rw [hglen]; rfl)
    have hl0 : leftovers = [] := List.length_eq_zero.mp (by rw [hllen]; rfl)
    have hents : ro.ents = [] := by
      rw [he, hg0, hl0]
      rfl
    rw [← hrw, hents]
    rfl

/-! ## C4 -/

/-- C4: with exactly 4 distinct cleaned players and one round, the round
is a single committed match of two sorted teams covering all four players
and there is no bye entry; with exactly 5, the round is one match of four
of them followed by a bye entry holding the one remaining player.
(The committed entries do not depend on `num_courts`.) -/
theorem four_five_player_round_shape (g : Sampler) (hg : ValidSampler g)
    (cnt0 : Nat) (players0 : List String) (minRest : Nat)
    (hnd : (players0.map cleanName).Nodup) :
    ((players0.map cleanName).length = 4 →
      ∀ ro ∈ (genRounds g cnt0 players0 1 minRest).1,
        ∃ p1 p2 p3 p4, ro.ents = [Entry.game (teamOf p1 p2) (teamOf p3 p4)] ∧
          ([p1, p2, p3, p4] : List String).Perm (players0.map cleanName)) ∧
    ((players0.map cleanName).length = 5 →
      ∀ ro ∈ (genRounds g cnt0 players0 1 minRest).1,
        ∃ p1 p2 p3 p4 x, ro.ents = [Entry.game (teamOf p1 p2) (teamOf p3 p4),
            Entry.bye [x]] ∧
          ([p1, p2, p3, p4, x] : List String).Perm (players0.map cleanName)) := by
  constructor
  · intro h4 ro hro
    obtain ⟨games, leftovers, he, hglen, hshape, _, hllen, hperm, _⟩ :=
      (genRounds_good g hg cnt0 players0 1 minRest hnd).2 ro hro
    rw [h4] at hglen hllen
    obtain ⟨e, hge⟩ := List.length_eq_one.mp (by rw [hglen])
    obtain ⟨p1, p2, p3, p4, heq, _⟩ := hshape e (by rw [hge]; simp)
    have hl0 : leftovers = [] := List.length_eq_zero.mp (by rw [hllen])
    refine ⟨p1, p2, p3, p4, ?_, ?_⟩
    · rw [he, hge, heq, hl0]
      rfl
    · rw [hge, heq, hl0] at hperm
      have h1 : (entsPlayers [Entry.game (teamOf p1 p2) (teamOf p3 p4)] ++
          ([] : List String)).Perm (entryPlayers (Entry.game (teamOf p1 p2) (teamOf p3 p4))) := by
        simp [entsPlayers]
      exact ((entryPlayers_game_perm p1 p2 p3 p4).symm.trans (h1.symm.trans hperm))
  · intro h5 ro hro
    obtain ⟨games, leftovers, he, hglen, hshape, _, hllen, hperm, _⟩ :=
      (genRounds_good g hg cnt0 players0 1 minRest hnd).2 ro hro
    rw [h5] at hglen hllen
    obtain ⟨e, hge⟩ := List.length_eq_one.mp (by rw [hglen])
    obtain ⟨p1, p2, p3, p4, heq, _⟩ := hshape e (by rw [hge]; simp)
    obtain ⟨x, hlx⟩ := List.length_eq_one.mp (by rw [hllen])
    have hnemp : ¬ leftovers.isEmpty := by rw [hlx]; simp
    refine ⟨p1, p2, p3, p4, x, ?_, ?_⟩
    · rw [he, hge, heq, if_neg hnemp, hlx]
      rfl
    · rw [hge, heq, hlx] at hperm
      have h1 : (entsPlayers [Entry.game (teamOf p1 p2) (teamOf p3 p4)] ++ [x]).Perm
          (entryPlayers (Entry.game (teamOf p1 p2) (teamOf p3 p4)) ++ [x]) := by
        simp [entsPlayers]
      have h2 : ([p1, p2, p3, p4, x] : List String) = [p1, p2, p3, p4] ++ [x] := rfl
      rw [h2]
      exact (((entryPlayers_game_perm p1 p2 p3 p4).symm.append
        (List.Perm.refl [x])).trans (h1.symm.trans hperm))

/-! ## C10 -/

/-- C10: with `n ≥ 4` distinct cleaned players, every round commits
exactly `⌊n/4⌋` matches, followed by a bye entry of the `n % 4` remaining
players exactly when `n % 4 > 0`; and for every `num_courts`, the rendered
dataframe holds exactly `numRounds · ⌊n/4⌋` match rows — the match count
does not depend on `num_courts`. -/
theorem match_count_floor_div_four (g : Sampler) (hg : ValidSampler g)
    (cnt0 : Nat) (players0 : List String) (numRounds numCourts minRest : Nat)
    (hnd : (players0.map cleanName).Nodup)
    (h4 : 4 ≤ (players0.map cleanName).length) :
    (∀ ro ∈ (genRounds g cnt0 players0 numRounds minRest).1,
      ∃ games leftovers : List _, ro.ents = games ++
          (if (players0.map cleanName).length % 4 = 0 then []
            else [Entry.bye leftovers]) ∧
        games.length = (players0.map cleanName).length / 4 ∧
        (∀ e ∈ games, entIsGame e = true) ∧
        (leftovers : List String).length = (players0.map cleanName).length % 4) ∧
    ((generateMatchups g cnt0 players0 numRounds numCourts minRest).1.filter
        rowIsGame).length = numRounds * ((players0.map cleanName).length / 4) := by
  have hrg := genRounds_good g hg cnt0 players0 numRounds minRest hnd
  constructor
  · intro ro hro
    obtain ⟨games, leftovers, he, hglen, hshape, _, hllen, _, _⟩ := hrg.2 ro hro
    refine ⟨games, leftovers, ?_, hglen, ?_, hllen⟩
    · rw [he]
      congr 1
      have hiff : leftovers.isEmpty = true ↔ (players0.map cleanName).length % 4 = 0 := by
        rw [List.isEmpty_iff_length_eq_zero, hllen]
      by_cases hemp : leftovers.isEmpty
      · rw [if_pos hemp, if_pos (hiff.mp hemp)]
      · rw [if_neg hemp, if_neg (fun hc => hemp (hiff.mpr hc))]
    · intro e he'
      obtain ⟨p1, p2, p3, p4, heq, _⟩ := hshape e he'
      rw [heq]; rfl
  · simp only [generateMatchups]
    rw [flatten_filter_length_const _ _ ((players0.map cleanName).length / 4)]
    · rw [hrg.1]
    · intro ro hro
      rw [renderRows_filter_game]
      exact roundGood_game_count (hrg.2 ro hro)

/-! ## C5 -/

/-- C5 counterexample: with 8 players, one round and `num_courts = 1`, the
round commits 2 matches — more than `num_courts`.  The drawing loop does
not stop when the court count is reached. -/
theorem court_cap_counterexample :
    ((generateMatchups takeSampler 0 ["A", "B", "C", "D", "E", "F", "G", "H"] 1 1 1).1.filter
        rowIsGame).length = 2 ∧
      ¬ ((generateMatchups takeSampler 0 ["A", "B", "C", "D", "E", "F", "G", "H"] 1 1 1).1.filter
        rowIsGame).length ≤ 1 :=
  ⟨by decide, by decide⟩

/-- C5 (amended): the drawing loop's only stopping condition is that fewer
than four unassigned players remain — `num_courts` plays no part in it —
so every round commits exactly `⌊n/4⌋` matches and the dataframe holds
`numRounds · ⌊n/4⌋` match rows for every `num_courts` whatsoever. -/
theorem drawing_stops_only_below_four (g : Sampler) (hg : ValidSampler g)
    (cnt0 : Nat) (players0 : List String) (numRounds numCourts minRest : Nat)
    (hnd : (players0.map cleanName).Nodup) :
    (∀ ro ∈ (genRounds g cnt0 players0 numRounds minRest).1,
      (ro.ents.filter entIsGame).length = (players0.map cleanName).length / 4) ∧
    ((generateMatchups g cnt0 players0 numRounds numCourts minRest).1.filter
        rowIsGame).length = numRounds * ((players0.map cleanName).length / 4) := by
  have hrg := genRounds_good g hg cnt0 players0 numRounds minRest hnd
  constructor
  · intro ro hro
    exact roundGood_game_count (hrg.2 ro hro)
  · simp only [generateMatchups]
    rw [flatten_filter_length_const _ _ ((players0.map cleanName).length / 4)]
    · rw [hrg.1]
    · intro ro hro
      rw [renderRows_filter_game]
      exact roundGood_game_count (hrg.2 ro hro)

/-! ## C6 -/

/-- C6 counterexample: with three players everyone rests, and the single
emitted row carries the cycling court number `"1"` — not `"BYE"` — in the
court field, the raw tuple of resting players (not a comma-joined string)
in the Team 1 field, and the non-empty string `"BYE"` in the Team 2
field. -/
theorem bye_fields_counterexample :
    (generateMatchups takeSampler 0 ["A", "B", "C"] 1 2 1).1 =
      [⟨1, "1", Cell.tup ["A", "B", "C"], Cell.str "BYE"⟩] ∧
    ("1" : String) ≠ "BYE" ∧ (Cell.str "BYE" : Cell) ≠ Cell.str "" :=
  ⟨by decide, by decide, by decide⟩

/-- C6 (amended): whenever leftover players remain in a round, the round's
rendered rows end with the bye row, whose court field is the next cycling
court number rendered as a decimal string, whose Team 1 field is the raw
tuple of the resting players' names, and whose Team 2 field is the string
`"BYE"`. -/
theorem bye_row_fields (g : Sampler) (hg : ValidSampler g)
    (cnt0 : Nat) (players0 : List String) (numRounds numCourts minRest : Nat)
    (hnd : (players0.map cleanName).Nodup)
    (hmod : (players0.map cleanName).length % 4 ≠ 0) :
    ∀ ro ∈ (genRounds g cnt0 players0 numRounds minRest).1,
      ∃ (L : List String) (c : Nat), L ≠ [] ∧ L.Nodup ∧
        L.length = (players0.map cleanName).length % 4 ∧
        (∀ p ∈ L, p ∈ players0.map cleanName) ∧
        (renderRows ro.r numCourts ro.ents 1).getLast? =
          some ⟨ro.r + 1, toString c, Cell.tup L, Cell.str "BYE"⟩ := by
  intro ro hro
  obtain ⟨games, leftovers, he, _, _, hlnd, hllen, hperm, _⟩ :=
    (genRounds_good g hg cnt0 players0 numRounds minRest hnd).2 ro hro
  have hnemp : ¬ leftovers.isEmpty := by
    rw [List.isEmpty_iff_length_eq_zero, hllen]
    exact hmod
  have he' : ro.ents = games ++ [Entry.bye leftovers] := by rw [he, if_neg hnemp]
  obtain ⟨c', hc⟩ := renderRows_append_last ro.r numCourts (Entry.bye leftovers) games 1
  refine ⟨leftovers, c', ?_, hlnd, hllen, ?_, ?_⟩
  · intro hnil
    rw [hnil] at hllen
    exact hmod hllen.symm
  · intro p hp
    exact hperm.mem_iff.mp (List.mem_append.mpr (Or.inr hp))
  · rw [he', hc]
    exact List.getLast?_concat _

/-! ## C8 -/

theorem roundsLoop_length (g : Sampler) (minRest : Nat) (players : List String) :
    ∀ left r0 (pu : Team → Nat) (mh : PMatch → Nat) (lp : String → Int) cnt,
      (roundsLoop g minRest players left r0 pu mh lp cnt).1.length = left := by
  intro left
  induction left with
  | zero => intro r0 pu mh lp cnt; rfl
  | succ n ih =>
    intro r0 pu mh lp cnt
    simp only [roundsLoop, List.length_cons]
    rw [ih]

/-- C8: the generator terminates on every input: the outer loop produces
exactly `numRounds` rounds, and — with a sampler meeting `random.sample`'s
contract — the court-filling `while` loop reaches its "fewer than 4
unassigned" exit within `|unassigned|` iterations: giving it any extra
fuel changes nothing, because each committed group strictly shrinks the
unassigned pool by four. -/
theorem generator_terminates (g : Sampler) (hg : ValidSampler g)
    (cnt0 : Nat) (players0 : List String) (numRounds minRest : Nat)
    (r : Int) (avail : List String) (hA : avail.Nodup) (st : LoopState)
    (hu : st.used.Nodup) (hsub : ∀ p ∈ st.used, p ∈ avail) :
    (genRounds g cnt0 players0 numRounds minRest).1.length = numRounds ∧
    ∀ extra, courtLoop g minRest r avail
        ((unassigned avail st.used).length + extra) st =
      courtLoop g minRest r avail (unassigned avail st.used).length st := by
  constructor
  · exact roundsLoop_length g minRest (players0.map cleanName) numRounds 0 _ _ _ cnt0
  · intro extra
    exact courtLoop_fuel_stable g hg minRest r avail hA
      (unassigned avail st.used).length st hu hsub (le_refl _) extra

/-! ## C9: only the arguments and the random source state matter -/

theorem trialLoop_shift (g1 g2 : Sampler) (c1 c2 : Nat)
    (h : ∀ n cs, g1 (c1 + n) cs = g2 (c2 + n) cs)
    (sc : List String → Nat) (cs : List String) :
    ∀ fuel m best bsc, ∃ k,
      trialLoop g1 sc cs fuel (c1 + m) best bsc =
        ((trialLoop g2 sc cs fuel (c2 + m) best bsc).1, c1 + (m + k)) ∧
      (trialLoop g2 sc cs fuel (c2 + m) best bsc).2 = c2 + (m + k) := by
  intro fuel
  induction fuel with
  | zero =>
    intro m best bsc
    exact ⟨0, rfl, rfl⟩
  | succ n ih =>
    intro m best bsc
    by_cases hl : cs.length < 4
    · refine ⟨0, ?_, ?_⟩
      · rw [trialLoop, if_pos hl, trialLoop, if_pos hl]
        rfl
      · rw [trialLoop, if_pos hl]
        rfl
    · have hs : g1 (c1 + m) cs = g2 (c2 + m) cs := h m cs
      rw [trialLoop, if_neg hl, trialLoop, if_neg hl]
      simp only [hs]
      have e1 : c1 + m + 1 = c1 + (m + 1) := by omega
      have e2 : c2 + m + 1 = c2 + (m + 1) := by omega
      by_cases hb : ltOpt (sc (g2 (c2 + m) cs)) bsc = true
      · rw [if_pos hb, if_pos hb, e1, e2]
        obtain ⟨k, hk1, hk2⟩ := ih (m + 1) (some (g2 (c2 + m) cs))
          (some (sc (g2 (c2 + m) cs)))
        refine ⟨k + 1, ?_, ?_⟩
        · rw [hk1]
          have : m + 1 + k = m + (k + 1) := by omega
          rw [this]
        · rw [hk2]
          omega
      · rw [if_neg hb, if_neg hb, e1, e2]
        obtain ⟨k, hk1, hk2⟩ := ih (m + 1) best bsc
        refine ⟨k + 1, ?_, ?_⟩
        · rw [hk1]
          have : m + 1 + k = m + (k + 1) := by omega
          rw [this]
        · rw [hk2]
          omega

/-- `commitStep` neither reads nor changes the sampler counter; all other
fields are functions of the group and the old fields only. -/
theorem commitStep_cnt (r : Int) (b : Option (List String)) (u : List String)
    (pu : Team → Nat) (mh : PMatch → Nat) (lp : String → Int) (es : List Entry) :
    ∃ u2 pu2 mh2 lp2 es2, ∀ c : Nat,
      commitStep r b ⟨u, pu, mh, lp, es, c⟩ = ⟨u2, pu2, mh2, lp2, es2, c⟩ := by
  cases b with
  | none => exact ⟨u, pu, mh, lp, es, fun c => rfl⟩
  | some l =>
    rcases l with _ | ⟨p1, _ | ⟨p2, _ | ⟨p3, _ | ⟨p4, _ | ⟨p5, t⟩⟩⟩⟩⟩
    · exact ⟨u, pu, mh, lp, es, fun c => rfl⟩
    · exact ⟨u, pu, mh, lp, es, fun c => rfl⟩
    · exact ⟨u, pu, mh, lp, es, fun c => rfl⟩
    · exact ⟨u, pu, mh, lp, es, fun c => rfl⟩
    · exact ⟨u ++ [p1, p2, p3, p4],
        updFn (updFn pu (teamOf p1 p2) (pu (teamOf p1 p2) + 1)) (teamOf p3 p4)
          (updFn pu (teamOf p1 p2) (pu (teamOf p1 p2) + 1) (teamOf p3 p4) + 1),
        updFn mh (matchOf (teamOf p1 p2) (teamOf p3 p4))
          (mh (matchOf (teamOf p1 p2) (teamOf p3 p4)) + 1),
        [p1, p2, p3, p4].foldl (fun f p => updFn f p r) lp,
        es ++ [Entry.game (teamOf p1 p2) (teamOf p3 p4)],
        fun c => rfl⟩
    · exact ⟨u, pu, mh, lp, es, fun c => rfl⟩

theorem courtLoop_shift (g1 g2 : Sampler) (c1 c2 : Nat)
    (h : ∀ n cs, g1 (c1 + n) cs = g2 (c2 + n) cs) (minRest : Nat) (r : Int)
    (avail : List String) :
    ∀ fuel u (pu : Team → Nat) (mh : PMatch → Nat) (lp : String → Int) es m,
      ∃ u' pu' mh' lp' es' m',
      courtLoop g1 minRest r avail fuel ⟨u, pu, mh, lp, es, c1 + m⟩ =
        ⟨u', pu', mh', lp', es', c1 + m'⟩ ∧
      courtLoop g2 minRest r avail fuel ⟨u, pu, mh, lp, es, c2 + m⟩ =
        ⟨u', pu', mh', lp', es', c2 + m'⟩ := by
  intro fuel
  induction fuel with
  | zero =>
    intro u pu mh lp es m
    exact ⟨u, pu, mh, lp, es, m, rfl, rfl⟩
  | succ n ih =>
    intro u pu mh lp es m
    by_cases h4 : 4 ≤ (unassigned avail u).length
    · obtain ⟨k, hk1, hk2⟩ := trialLoop_shift g1 g2 c1 c2 h
        (groupScore pu mh lp r minRest) (unassigned avail u) 100 m none none
      have hg2pair : trialLoop g2 (groupScore pu mh lp r minRest) (unassigned avail u)
          100 (c2 + m) none none =
          ((trialLoop g2 (groupScore pu mh lp r minRest) (unassigned avail u)
            100 (c2 + m) none none).1, c2 + (m + k)) := by
        rw [← hk2]
      obtain ⟨u2, pu2, mh2, lp2, es2, hcf⟩ := commitStep_cnt r
        ((trialLoop g2 (groupScore pu mh lp r minRest) (unassigned avail u)
          100 (c2 + m) none none).1) u pu mh lp es
      obtain ⟨u', pu', mh', lp', es', m', ih1, ih2⟩ := ih u2 pu2 mh2 lp2 es2 (m + k)
      refine ⟨u', pu', mh', lp', es', m', ?_, ?_⟩
      · simp only [courtLoop]
        rw [if_pos h4, hk1]
        simp only
        rw [hcf (c1 + (m + k))]
        exact ih1
      · simp only [courtLoop]
        rw [if_pos h4, hg2pair]
        simp only
        rw [hcf (c2 + (m + k))]
        exact ih2
    · refine ⟨u, pu, mh, lp, es, m, ?_, ?_⟩
      · simp only [courtLoop]
        rw [if_neg h4]
      · simp only [courtLoop]
        rw [if_neg h4]

theorem runRound_shift (g1 g2 : Sampler) (c1 c2 : Nat)
    (h : ∀ n cs, g1 (c1 + n) cs = g2 (c2 + n) cs) (minRest : Nat)
    (players : List String) (r : Nat) (pu : Team → Nat) (mh : PMatch → Nat)
    (lp : String → Int) (m : Nat) :
    ∃ (ents : List Entry) (pu' : Team → Nat) (mh' : PMatch → Nat)
      (lp' : String → Int) (m' : Nat),
      runRound g1 minRest players r pu mh lp (c1 + m) = (ents, pu', mh', lp', c1 + m') ∧
      runRound g2 minRest players r pu mh lp (c2 + m) = (ents, pu', mh', lp', c2 + m') := by
  obtain ⟨u', pu', mh', lp', es', m', h1, h2⟩ := courtLoop_shift g1 g2 c1 c2 h minRest r
    (players.insertionSort fun a b => ((r : Int) - lp b) ≤ ((r : Int) - lp a))
    (players.insertionSort fun a b => ((r : Int) - lp b) ≤ ((r : Int) - lp a)).length
    [] pu mh lp [] m
  refine ⟨es' ++ (if (unassigned
      (players.insertionSort fun a b => ((r : Int) - lp b) ≤ ((r : Int) - lp a))
      u').isEmpty then []
    else [Entry.bye (unassigned
      (players.insertionSort fun a b => ((r : Int) - lp b) ≤ ((r : Int) - lp a)) u')]),
    pu', mh', lp', m', ?_, ?_⟩
  · simp only [runRound]
    rw [h1]
  · simp only [runRound]
    rw [h2]

theorem roundsLoop_shift (g1 g2 : Sampler) (c1 c2 : Nat)
    (h : ∀ n cs, g1 (c1 + n) cs = g2 (c2 + n) cs) (minRest : Nat)
    (players : List String) :
    ∀ left r0 (pu : Team → Nat) (mh : PMatch → Nat) (lp : String → Int) m,
      ∃ rl m',
      roundsLoop g1 minRest players left r0 pu mh lp (c1 + m) = (rl, c1 + m') ∧
      roundsLoop g2 minRest players left r0 pu mh lp (c2 + m) = (rl, c2 + m') := by
  intro left
  induction left with
  | zero =>
    intro r0 pu mh lp m
    exact ⟨[], m, rfl, rfl⟩
  | succ n ih =>
    intro r0 pu mh lp m
    obtain ⟨ents, pu', mh', lp', m', h1, h2⟩ :=
      runRound_shift g1 g2 c1 c2 h minRest players r0 pu mh lp m
    obtain ⟨rl, m'', hr1, hr2⟩ := ih (r0 + 1) pu' mh' lp' m'
    refine ⟨⟨r0, ents⟩ :: rl, m'', ?_, ?_⟩
    · simp only [roundsLoop]
      rw [h1]
      simp only
      rw [hr1]
    · simp only [roundsLoop]
      rw [h2]
      simp only
      rw [hr2]

/-- C9: `generate_matchups` keeps no state across calls.  All histories
are created fresh inside the call, so the output depends only on the
arguments and on the state of the random source at the call's start: two
calls whose samplers agree from their respective starting counters onward
produce identical rows and advance the random source equally.  In
particular, no earlier call can influence a later one except through the
random source. -/
theorem fresh_state_per_call (g1 g2 : Sampler) (c1 c2 : Nat)
    (h : ∀ n cs, g1 (c1 + n) cs = g2 (c2 + n) cs)
    (players0 : List String) (numRounds numCourts minRest : Nat) :
    (generateMatchups g1 c1 players0 numRounds numCourts minRest).1 =
      (generateMatchups g2 c2 players0 numRounds numCourts minRest).1 ∧
    ∃ k, (generateMatchups g1 c1 players0 numRounds numCourts minRest).2 = c1 + k ∧
      (generateMatchups g2 c2 players0 numRounds numCourts minRest).2 = c2 + k := by
  obtain ⟨rl, m', h1, h2⟩ := roundsLoop_shift g1 g2 c1 c2 h minRest
    (players0.map cleanName) numRounds 0 (fun _ => 0) (fun _ => 0)
    (fun _ => -(minRest : Int)) 0
  rw [Nat.add_zero] at h1 h2
  constructor
  · simp only [generateMatchups, genRounds]
    rw [h1, h2]
  · refine ⟨m', ?_, ?_⟩
    · simp only [generateMatchups, genRounds]
      rw [h1]
    · simp only [generateMatchups, genRounds]
      rw [h2]

/-! ## Concrete witnesses -/

theorem takeSampler_valid : ValidSampler takeSampler := by
  intro n cs h4 hnd
  refine ⟨?_, ?_, ?_⟩
  · rw [takeSampler, List.length_take]
    omega
  · exact (List.take_sublist 4 cs).nodup hnd
  · intro x hx
    exact (List.take_sublist 4 cs).subset hx

/-- Witness for C1 at five concrete players over two rounds. -/
theorem round_partitions_players_witness :
    ValidSampler takeSampler ∧
    ((["Alice", "Bob", "Cara", "Dan", "Eve"].map cleanName).Nodup ∧
      (["Alice", "Bob", "Cara", "Dan", "Eve"] : List String) ≠ [] ∧ 0 < 2) ∧
    (∀ ro ∈ (genRounds takeSampler 0 ["Alice", "Bob", "Cara", "Dan", "Eve"] 2 1).1,
      (∃ games byePart, ro.ents = games ++ byePart ∧
        (∀ e ∈ games, ∃ t1 t2, e = Entry.game t1 t2) ∧
        (byePart = [] ∨ ∃ ls : List String, ls ≠ [] ∧ byePart = [Entry.bye ls])) ∧
      (entsPlayers ro.ents).Perm
        (["Alice", "Bob", "Cara", "Dan", "Eve"].map cleanName)) :=
  ⟨takeSampler_valid, ⟨by decide, by decide, by decide⟩,
    round_partitions_players takeSampler takeSampler_valid 0
      ["Alice", "Bob", "Cara", "Dan", "Eve"] 2 1 (by decide) (by decide) (by decide)⟩

/-- Witness for C2 at a concrete candidate pool and histories. -/
theorem trial_scoring_and_selection_witness :
    (4 ≤ (["A", "B", "C", "D", "E"] : List String).length) ∧
    ((∀ p1 p2 p3 p4 : String,
        groupScore (fun _ => 0) (fun _ => 0) (fun _ => 0) 0 1 [p1, p2, p3, p4] =
          10 * (fun _ => (0 : Nat)) (teamOf p1 p2) +
            10 * (fun _ => (0 : Nat)) (teamOf p3 p4) +
            5 * (fun _ => (0 : Nat)) (matchOf (teamOf p1 p2) (teamOf p3 p4)) +
            20 * ([p1, p2, p3, p4].filter fun p =>
                decide ((0 : Int) - (fun _ => (0 : Int)) p < ((1 : Nat) : Int))).length) ∧
      ∃ j, ∃ hj : j < 100,
        (trialLoop takeSampler (groupScore (fun _ => 0) (fun _ => 0) (fun _ => 0) 0 1)
          ["A", "B", "C", "D", "E"] 100 7 none none).1 =
          some (takeSampler (7 + j) ["A", "B", "C", "D", "E"]) ∧
        (∀ i, i < 100 → groupScore (fun _ => 0) (fun _ => 0) (fun _ => 0) 0 1
            (takeSampler (7 + j) ["A", "B", "C", "D", "E"]) ≤
          groupScore (fun _ => 0) (fun _ => 0) (fun _ => 0) 0 1
            (takeSampler (7 + i) ["A", "B", "C", "D", "E"])) ∧
        (∀ i, i < j → groupScore (fun _ => 0) (fun _ => 0) (fun _ => 0) 0 1
            (takeSampler (7 + j) ["A", "B", "C", "D", "E"]) <
          groupScore (fun _ => 0) (fun _ => 0) (fun _ => 0) 0 1
            (takeSampler (7 + i) ["A", "B", "C", "D", "E"]))) :=
  ⟨by decide, trial_scoring_and_selection takeSampler (fun _ => 0) (fun _ => 0)
    (fun _ => 0) 0 1 ["A", "B", "C", "D", "E"] 7 (by decide)⟩

/-- Witness for C3 at two players (and at the empty roster). -/
theorem sparse_input_all_bye_witness :
    ValidSampler takeSampler ∧
    ((["A", "B"].map cleanName).Nodup ∧ (["A", "B"].map cleanName).length < 4) ∧
    (((["A", "B"].map cleanName) ≠ [] →
      (genRounds takeSampler 0 ["A", "B"] 2 1).1.length = 2 ∧
      ∀ ro ∈ (genRounds takeSampler 0 ["A", "B"] 2 1).1,
        ∃ L : List String, ro.ents = [Entry.bye L] ∧
          L.Perm (["A", "B"].map cleanName)) ∧
    ((["A", "B"] : List String) = [] →
      (generateMatchups takeSampler 0 ["A", "B"] 2 3 1).1 = [])) :=
  ⟨takeSampler_valid, ⟨by decide, by decide⟩,
    sparse_input_all_bye takeSampler takeSampler_valid 0 ["A", "B"] 2 3 1
      (by decide) (by decide)⟩

/-- Witness for C4 at five concrete players. -/
theorem four_five_player_round_shape_witness :
    ValidSampler takeSampler ∧
    ((["A", "B", "C", "D", "E"].map cleanName).Nodup) ∧
    (((["A", "B", "C", "D", "E"].map cleanName).length = 4 →
      ∀ ro ∈ (genRounds takeSampler 0 ["A", "B", "C", "D", "E"] 1 1).1,
        ∃ p1 p2 p3 p4, ro.ents = [Entry.game (teamOf p1 p2) (teamOf p3 p4)] ∧
          ([p1, p2, p3, p4] : List String).Perm
            (["A", "B", "C", "D", "E"].map cleanName)) ∧
    ((["A", "B", "C", "D", "E"].map cleanName).length = 5 →
      ∀ ro ∈ (genRounds takeSampler 0 ["A", "B", "C", "D", "E"] 1 1).1,
        ∃ p1 p2 p3 p4 x, ro.ents = [Entry.game (teamOf p1 p2) (teamOf p3 p4),
            Entry.bye [x]] ∧
          ([p1, p2, p3, p4, x] : List String).Perm
            (["A", "B", "C", "D", "E"].map cleanName))) :=
  ⟨takeSampler_valid, by decide,
    four_five_player_round_shape takeSampler takeSampler_valid 0
      ["A", "B", "C", "D", "E"] 1 (by decide)⟩

/-- Witness for the amended C5 at five players and one court. -/
theorem drawing_stops_only_below_four_witness :
    ValidSampler takeSampler ∧
    ((["A", "B", "C", "D", "E"].map cleanName).Nodup) ∧
    ((∀ ro ∈ (genRounds takeSampler 0 ["A", "B", "C", "D", "E"] 2 1).1,
      (ro.ents.filter entIsGame).length =
        (["A", "B", "C", "D", "E"].map cleanName).length / 4) ∧
    ((generateMatchups takeSampler 0 ["A", "B", "C", "D", "E"] 2 1 1).1.filter
        rowIsGame).length =
      2 * ((["A", "B", "C", "D", "E"].map cleanName).length / 4)) :=
  ⟨takeSampler_valid, by decide,
    drawing_stops_only_below_four takeSampler takeSampler_valid 0
      ["A", "B", "C", "D", "E"] 2 1 1 (by decide)⟩

/-- Witness for the amended C6 at five players (one leftover per round). -/
theorem bye_row_fields_witness :
    ValidSampler takeSampler ∧
    ((["A", "B", "C", "D", "E"].map cleanName).Nodup ∧
      (["A", "B", "C", "D", "E"].map cleanName).length % 4 ≠ 0) ∧
    (∀ ro ∈ (genRounds takeSampler 0 ["A", "B", "C", "D", "E"] 1 2 ).1,
      ∃ (L : List String) (c : Nat), L ≠ [] ∧ L.Nodup ∧
        L.length = (["A", "B", "C", "D", "E"].map cleanName).length % 4 ∧
        (∀ p ∈ L, p ∈ ["A", "B", "C", "D", "E"].map cleanName) ∧
        (renderRows ro.r 2 ro.ents 1).getLast? =
          some ⟨ro.r + 1, toString c, Cell.tup L, Cell.str "BYE"⟩) :=
  ⟨takeSampler_valid, ⟨by decide, by decide⟩,
    bye_row_fields takeSampler takeSampler_valid 0 ["A", "B", "C", "D", "E"]
      1 2 2 (by decide) (by decide)⟩

/-- Witness for C8 at a concrete loop state. -/
theorem generator_terminates_witness :
    ValidSampler takeSampler ∧
    ((["A", "B", "C", "D", "E"] : List String).Nodup ∧
      ([] : List String).Nodup ∧
      (∀ p ∈ ([] : List String), p ∈ (["A", "B", "C", "D", "E"] : List String))) ∧
    ((genRounds takeSampler 0 ["A"] 3 1).1.length = 3 ∧
    ∀ extra, courtLoop takeSampler 1 0 ["A", "B", "C", "D", "E"]
        ((unassigned ["A", "B", "C", "D", "E"]
          (⟨[], fun _ => 0, fun _ => 0, fun _ => 0, [], 0⟩ : LoopState).used).length + extra)
        ⟨[], fun _ => 0, fun _ => 0, fun _ => 0, [], 0⟩ =
      courtLoop takeSampler 1 0 ["A", "B", "C", "D", "E"]
        (unassigned ["A", "B", "C", "D", "E"]
          (⟨[], fun _ => 0, fun _ => 0, fun _ => 0, [], 0⟩ : LoopState).used).length
        ⟨[], fun _ => 0, fun _ => 0, fun _ => 0, [], 0⟩) :=
  ⟨takeSampler_valid, ⟨by decide, by decide, by simp⟩,
    generator_terminates takeSampler takeSampler_valid 0 ["A"] 3 1 0
      ["A", "B", "C", "D", "E"] (by decide)
      ⟨[], fun _ => 0, fun _ => 0, fun _ => 0, [], 0⟩ (by decide) (by simp)⟩

/-- Witness for C9: two calls with the same arguments and the same random
source state from their starting counters produce the same rows. -/
theorem fresh_state_per_call_witness :
    (∀ n cs, takeSampler (0 + n) cs = takeSampler (0 + n) cs) ∧
    ((generateMatchups takeSampler 0 ["A", "B", "C", "D", "E"] 2 2 1).1 =
      (generateMatchups takeSampler 0 ["A", "B", "C", "D", "E"] 2 2 1).1 ∧
    ∃ k, (generateMatchups takeSampler 0 ["A", "B", "C", "D", "E"] 2 2 1).2 = 0 + k ∧
      (generateMatchups takeSampler 0 ["A", "B", "C", "D", "E"] 2 2 1).2 = 0 + k) :=
  ⟨fun _ _ => rfl,
    fresh_state_per_call takeSampler takeSampler 0 0 (fun _ _ => rfl)
      ["A", "B", "C", "D", "E"] 2 2 1⟩

/-- Witness for C10 at nine concrete players. -/
theorem match_count_floor_div_four_witness :
    ValidSampler takeSampler ∧
    ((["A", "B", "C", "D", "E", "F", "G", "H", "I"].map cleanName).Nodup ∧
      4 ≤ (["A", "B", "C", "D", "E", "F", "G", "H", "I"].map cleanName).length) ∧
    ((∀ ro ∈ (genRounds takeSampler 0
        ["A", "B", "C", "D", "E", "F", "G", "H", "I"] 2 1).1,
      ∃ games leftovers : List _, ro.ents = games ++
          (if (["A", "B", "C", "D", "E", "F", "G", "H", "I"].map cleanName).length % 4 = 0
            then [] else [Entry.bye leftovers]) ∧
        games.length =
          (["A", "B", "C", "D", "E", "F", "G", "H", "I"].map cleanName).length / 4 ∧
        (∀ e ∈ games, entIsGame e = true) ∧
        (leftovers : List String).length =
          (["A", "B", "C", "D", "E", "F", "G", "H", "I"].map cleanName).length % 4) ∧
    ((generateMatchups takeSampler 0
        ["A", "B", "C", "D", "E", "F", "G", "H", "I"] 2 2 1).1.filter
        rowIsGame).length =
      2 * ((["A", "B", "C", "D", "E", "F", "G", "H", "I"].map cleanName).length / 4)) :=
  ⟨takeSampler_valid, ⟨by decide, by decide⟩,
    match_count_floor_div_four takeSampler takeSampler_valid 0
      ["A", "B", "C", "D", "E", "F", "G", "H", "I"] 2 2 1 (by decide) (by decide)⟩

end Badminton
